import Mathlib

/-!
# Shallow embedding of the `weave` concurrent directed graph store

This file embeds the data model and operations of the graph store
(`src/lib.rs`, `src/read_only.rs`) and proves the specification's
claims about them.

Modelling decisions, each tied to the source:
* `DashMap` is modelled as an association list (`List (K × V)`); only
  one thread is modelled, so shard locking is invisible, and the
  (unspecified) iteration order of the map is the list order.
* The `AtomicU64` edge-id counter is a `Nat` kept below `2 ^ 64`;
  `fetch_add(1, Relaxed)` returns the current value and stores the
  successor reduced modulo `2 ^ 64`, exactly as the machine wraps.
* Panics (`unwrap`, `expect`) are modelled as `none`; functions that
  may panic return `Option`.
* Operations are modelled with release-build semantics: the
  `debug_assert!` lines in `Graph::add_edge` are compiled out.
-/

namespace Weave

/-- The modulus of the `u64` edge-id counter (`AtomicU64` wraps at this). -/
def U64 : Nat := 2 ^ 64

/-- The id newtype `EdgeId(u64)` is modelled as the `Nat` value of its `u64` field. -/
abbrev EdgeId := Nat

section AssocModel

variable {α : Type} {β : Type}

/-- Association-list lookup; models `DashMap::get` (first matching key). -/
def lookupA [DecidableEq α] : List (α × β) → α → Option β
  | [], _ => none
  | (k, v) :: rest, a => if k = a then some v else lookupA rest a

/-- Association-list overwrite; models the map-update effect of
`DashMap::insert` (the previous value is read off separately with
`lookupA`). A fresh key is appended at the end. -/
def insertA [DecidableEq α] : List (α × β) → α → β → List (α × β)
  | [], a, b => [(a, b)]
  | (k, v) :: rest, a, b =>
    if k = a then (a, b) :: rest else (k, v) :: insertA rest a b

/-- Models `map.entry(a).or_default().push(x)` on a `DashMap` whose values
are `Vec`s: append `x` to the vector stored under `a`, creating a fresh
entry holding `[x]` when `a` is absent. -/
def pushEntry [DecidableEq α] : List (α × List β) → α → β → List (α × List β)
  | [], a, x => [(a, [x])]
  | (k, xs) :: rest, a, x =>
    if k = a then (k, xs ++ [x]) :: rest else (k, xs) :: pushEntry rest a x

/-- The keys of an association list. -/
def keys (l : List (α × β)) : List α := l.map Prod.fst

end AssocModel

/-- Structure `Graph<K, V, E, S>` (src/lib.rs, lines 47-53). The hasher parameter
`S` only affects bucketing, not observable behaviour, and is dropped. -/
structure Graph (K V E : Type) where
  nodes : List (K × V)
  edges : List (EdgeId × E)
  «to» : List (K × List (EdgeId × K))
  «from» : List (K × List (EdgeId × K))
  curr_edge_id : Nat

/-- All entries of an adjacency index (`to` or `from`), flattened in
storage order as triples `(edge id, owner key, peer key)`. -/
def outPairs {K : Type} (idx : List (K × List (EdgeId × K))) :
    List (EdgeId × K × K) :=
  (idx.map (fun p => p.2.map (fun e => (e.1, p.1, e.2)))).flatten

/-- The edge ids of all entries of an adjacency index, in storage order. -/
def outIds {K : Type} (idx : List (K × List (EdgeId × K))) : List EdgeId :=
  (outPairs idx).map Prod.fst

namespace Graph

variable {K V E : Type}

/-- Models `Graph::default` (src/lib.rs, lines 60-68): four empty maps, counter 0.
`Graph::new`, `with_capacity`, `with_hasher` and `with_capacity_and_hasher`
all produce this same initial state (capacity is a reservation hint only). -/
def default : Graph K V E :=
  { nodes := [], edges := [], «to» := [], «from» := [], curr_edge_id := 0 }

/-- Models `Graph::next_edge_id` (src/lib.rs, lines 276-281):
`curr_edge_id.fetch_add(1, Relaxed)` returns the previous value and
stores the successor; the `AtomicU64` wraps modulo `2 ^ 64`. -/
def next_edge_id (g : Graph K V E) : EdgeId × Graph K V E :=
  (g.curr_edge_id % U64, { g with curr_edge_id := (g.curr_edge_id + 1) % U64 })

/-- Models `Graph::insert` (src/lib.rs, lines 170-172): `self.nodes.insert(key, value)`;
first component is the returned previous value, second the new state. -/
def insert [DecidableEq K] (g : Graph K V E) (key : K) (value : V) :
    Option V × Graph K V E :=
  (lookupA g.nodes key, { g with nodes := insertA g.nodes key value })

/-- Models `Graph::get_node` (src/lib.rs, lines 153-159). -/
def get_node [DecidableEq K] (g : Graph K V E) (key : K) : Option V :=
  lookupA g.nodes key

/-- Models `Graph::has_node` (src/lib.rs, lines 145-151). -/
def has_node [DecidableEq K] (g : Graph K V E) (key : K) : Bool :=
  (lookupA g.nodes key).isSome

/-- Writing a payload through the `RefMut` handle returned by
`Graph::get_node_mut` (src/lib.rs, lines 161-167): overwrites the payload
of `key` when present, does nothing when the handle does not exist. -/
def modify_node [DecidableEq K] (g : Graph K V E) (key : K) (value : V) :
    Graph K V E :=
  match lookupA g.nodes key with
  | some _ => { g with nodes := insertA g.nodes key value }
  | none => g

/-- Models `Graph::get_edge` (src/lib.rs, lines 174-176). -/
def get_edge (g : Graph K V E) (edge_id : EdgeId) : Option E :=
  lookupA g.edges edge_id

/-- Models `Graph::add_edge` (src/lib.rs, lines 179-195), release-build
semantics (the two `debug_assert!(self.nodes.contains_key(..))` checks
are compiled out). The Rust function returns `()`; the second component
is that returned unit value. -/
def add_edge [DecidableEq K] (g : Graph K V E) («from» «to» : K) (edge : E) :
    Graph K V E × Unit :=
  let p := g.next_edge_id
  let edge_id := p.1
  let g1 := p.2
  let g2 := { g1 with edges := insertA g1.edges edge_id edge }
  let g3 := { g2 with «from» := pushEntry g2.«from» «from» (edge_id, «to») }
  let g4 := { g3 with «to» := pushEntry g3.«to» «to» (edge_id, «from») }
  (g4, ())

/-- Models `Graph::edges_from` (src/lib.rs, lines 197-203). -/
def edges_from [DecidableEq K] (g : Graph K V E) (key : K) :
    Option (List (EdgeId × K)) :=
  lookupA g.«from» key

/-- Models `Graph::edges_to` (src/lib.rs, lines 205-211). -/
def edges_to [DecidableEq K] (g : Graph K V E) (key : K) :
    Option (List (EdgeId × K)) :=
  lookupA g.«to» key

/-- Models `Clone for Graph` (src/lib.rs, lines 262-272): clones the four maps
and builds a new `AtomicU64` holding the loaded current counter value. -/
def clone (g : Graph K V E) : Graph K V E :=
  { nodes := g.nodes, edges := g.edges, «to» := g.«to», «from» := g.«from»,
    curr_edge_id := g.curr_edge_id }

end Graph

/-- The capacities requested from `DashMap::with_capacity_and_hasher` by
`Graph::with_capacity_and_hasher` (src/lib.rs, lines 122-133), one field
per map. -/
structure CapacityPlan where
  nodesCapacity : Nat
  edgesCapacity : Nat
  toCapacity : Nat
  fromCapacity : Nat

/-- Models `Graph::with_capacity_and_hasher` (src/lib.rs, lines 122-133), as the
capacities it requests: `edge_capacity = capacity / 2`, `nodes` and
`edges` get `capacity`, `to` and `from` get `edge_capacity`. -/
def with_capacity_and_hasher_plan (capacity : Nat) : CapacityPlan :=
  let edge_capacity := capacity / 2
  { nodesCapacity := capacity
    edgesCapacity := capacity
    toCapacity := edge_capacity
    fromCapacity := edge_capacity }

/-- Models `Graph::with_capacity` (src/lib.rs, lines 92-94), which forwards its capacity
to `with_capacity_and_hasher`. -/
def with_capacity_plan (capacity : Nat) : CapacityPlan :=
  with_capacity_and_hasher_plan capacity

/-- Structure `ReadOnlyGraph<K, V, E, S>` (src/read_only.rs, lines 11-17), the
snapshot produced by `Graph::into_read_only`; `curr_edge_id` is dropped. -/
structure ReadOnlyGraph (K V E : Type) where
  nodes : List (K × V)
  edges : List (EdgeId × E)
  «to» : List (K × List (EdgeId × K))
  «from» : List (K × List (EdgeId × K))

/-- Models `Graph::into_read_only` (src/lib.rs, lines 245-252). -/
def Graph.into_read_only {K V E : Type} (g : Graph K V E) :
    ReadOnlyGraph K V E :=
  { nodes := g.nodes, edges := g.edges, «to» := g.«to», «from» := g.«from» }

namespace ReadOnlyGraph

variable {K V E : Type}

/-- Models `ReadOnlyGraph::get_node` (src/read_only.rs, lines 42-48). -/
def get_node [DecidableEq K] (g : ReadOnlyGraph K V E) (key : K) : Option V :=
  lookupA g.nodes key

/-- Models `ReadOnlyGraph::has_node` (src/read_only.rs, lines 34-40). -/
def has_node [DecidableEq K] (g : ReadOnlyGraph K V E) (key : K) : Bool :=
  (lookupA g.nodes key).isSome

/-- Models `ReadOnlyGraph::get_edge` (src/read_only.rs, lines 50-52). -/
def get_edge (g : ReadOnlyGraph K V E) (key : EdgeId) : Option E :=
  lookupA g.edges key

/-- Models `ReadOnlyGraph::edge_ids_from` (src/read_only.rs, lines 54-60). -/
def edge_ids_from [DecidableEq K] (g : ReadOnlyGraph K V E) (key : K) :
    Option (List (EdgeId × K)) :=
  lookupA g.«from» key

/-- Models `ReadOnlyGraph::edge_ids_to` (src/read_only.rs, lines 62-68). -/
def edge_ids_to [DecidableEq K] (g : ReadOnlyGraph K V E) (key : K) :
    Option (List (EdgeId × K)) :=
  lookupA g.«to» key

/-- Models `ops::Index for ReadOnlyGraph` (src/read_only.rs, lines 104-115):
`self.get_node(&key).expect("Key not found")`. The result `none` models
the `expect` panic (process abort with the `Key not found` diagnostic);
no payload is produced in that case. -/
def index [DecidableEq K] (g : ReadOnlyGraph K V E) (key : K) : Option V :=
  match g.get_node key with
  | some v => some v
  | none => none

/-- The body of the closures in `ReadOnlyGraph::iter_edges_from` and
`ReadOnlyGraph::iter` (src/read_only.rs, lines 77-83 and 95-99), mapped
over an adjacency list: each entry `(edge_id, to)` becomes
`(from-payload, self.edges.get(edge_id).unwrap(), self.nodes.get(to).unwrap())`.
The result `none` models an `unwrap` panic while the iterator is consumed. -/
def edgeTriples [DecidableEq K] (g : ReadOnlyGraph K V E) (v : V) :
    List (EdgeId × K) → Option (List (V × E × V))
  | [] => some []
  | (edge_id, t) :: rest =>
    match lookupA g.edges edge_id, lookupA g.nodes t, edgeTriples g v rest with
    | some e, some tv, some ts => some ((v, e, tv) :: ts)
    | _, _, _ => none

/-- Models `ReadOnlyGraph::iter_edges_from` (src/read_only.rs, lines 70-84).
The outer `Option` is the Rust return (`none` when `key` is missing from
`nodes` or from the outgoing index, via the two `?`); the inner `Option`
is `none` when consuming the returned iterator panics on an `unwrap`. -/
def iter_edges_from [DecidableEq K] (g : ReadOnlyGraph K V E) (key : K) :
    Option (Option (List (V × E × V))) :=
  match g.get_node key, g.edge_ids_from key with
  | some v, some es => some (g.edgeTriples v es)
  | _, _ => none

/-- The traversal of `ReadOnlyGraph::iter` (src/read_only.rs, lines 90-101)
over the node entries: `filter_map` keeps the nodes that have an outgoing
adjacency list, and `flat_map` expands each kept list with `edgeTriples`. -/
def iterGo [DecidableEq K] (g : ReadOnlyGraph K V E) :
    List (K × V) → Option (List (V × E × V))
  | [] => some []
  | (k, v) :: rest =>
    match lookupA g.«from» k with
    | none => iterGo g rest
    | some es =>
      match g.edgeTriples v es, iterGo g rest with
      | some ts, some rs => some (ts ++ rs)
      | _, _ => none

/-- Models `ReadOnlyGraph::iter` (src/read_only.rs, lines 90-101), fully
consumed: `none` models a panic of one of its `unwrap` calls. -/
def iter [DecidableEq K] (g : ReadOnlyGraph K V E) :
    Option (List (V × E × V)) :=
  g.iterGo g.nodes

end ReadOnlyGraph

/-- Reachability predicate: `ReachableN n g` says the state `g` can be produced by the public mutating
API starting from a fresh store, using exactly `n` `add_edge` calls.
Covers every state-constructing operation of the crate: the constructors
(all of which produce `Graph.default`'s state, including the
`FromIterator` impls in src/iter.rs which construct and then insert),
`insert`, payload writes through `get_node_mut`, `add_edge`, and `clone`.
`shrink_to_fit` / `shrink_all_to_fit` do not change the logical state. -/
inductive ReachableN {K V E : Type} [DecidableEq K] :
    Nat → Graph K V E → Prop where
  | base : ReachableN 0 Graph.default
  | insert (n : Nat) (g : Graph K V E) (key : K) (value : V) :
      ReachableN n g → ReachableN n (g.insert key value).2
  | modify (n : Nat) (g : Graph K V E) (key : K) (value : V) :
      ReachableN n g → ReachableN n (g.modify_node key value)
  | add_edge (n : Nat) (g : Graph K V E) (a b : K) (e : E) :
      ReachableN n g → ReachableN (n + 1) (g.add_edge a b e).1
  | clone (n : Nat) (g : Graph K V E) : ReachableN n g → ReachableN n g.clone

/-- A state reachable through the public API, with any number of edges. -/
abbrev Reachable {K V E : Type} [DecidableEq K] (g : Graph K V E) : Prop :=
  ∃ n, ReachableN n g

/-- The cross-map consistency property claimed for the edge stores: every
edge id present in the edge store appears exactly once among the entries
of the outgoing index and exactly once among the entries of the incoming
index, every adjacency entry references a stored edge id, and the unique
outgoing occurrence `(id, a, b)` (id filed under source `a` with peer
`b`) is mirrored by the unique incoming occurrence `(id, b, a)`. -/
abbrev AdjacencyInv {K V E : Type} [DecidableEq K] (g : Graph K V E) : Prop :=
  (∀ p ∈ g.edges,
    (outIds g.«from»).count p.1 = 1 ∧ (outIds g.«to»).count p.1 = 1)
  ∧ (∀ t ∈ outPairs g.«from»,
      (lookupA g.edges t.1).isSome ∧ (t.1, t.2.2, t.2.1) ∈ outPairs g.«to»)
  ∧ (∀ t ∈ outPairs g.«to»,
      (lookupA g.edges t.1).isSome ∧ (t.1, t.2.2, t.2.1) ∈ outPairs g.«from»)

/-- Inductive strengthening of `AdjacencyInv` for a state reached with
`n` `add_edge` calls, `n ≤ 2 ^ 64` (before the `u64` counter wraps):
the counter equals `n % 2 ^ 64`, the stored edge ids are exactly
`0, …, n-1` in insertion order, each adjacency index holds exactly those
ids (as a permutation, one entry each), occurrences in the two indices
mirror each other, and all four maps have duplicate-free keys. -/
abbrev StrongInv {K V E : Type} [DecidableEq K] (g : Graph K V E) (n : Nat) :
    Prop :=
  g.curr_edge_id = n % U64
  ∧ keys g.edges = List.range n
  ∧ (outIds g.«from»).Perm (List.range n)
  ∧ (outIds g.«to»).Perm (List.range n)
  ∧ (∀ t ∈ outPairs g.«from», (t.1, t.2.2, t.2.1) ∈ outPairs g.«to»)
  ∧ (∀ t ∈ outPairs g.«to», (t.1, t.2.2, t.2.1) ∈ outPairs g.«from»)
  ∧ (keys g.nodes).Nodup
  ∧ (keys g.«from»).Nodup
  ∧ (keys g.«to»).Nodup

/-! ### Concrete states used in witnesses and counterexamples -/

/-- The store of the crate's own test scenario (src/test.rs): nodes
`1 ↦ "Alice"`, `2 ↦ "Bob"`, `3 ↦ "Charlie"`. -/
def gW3 : Graph Nat String String :=
  (((Graph.default.insert 1 "Alice").2.insert 2 "Bob").2.insert 3 "Charlie").2

/-- The store `gW3` after `add_edge(1, 2, "Follows")` and `add_edge(2, 3, "Blocks")`. -/
def gW3e : Graph Nat String String :=
  ((gW3.add_edge 1 2 "Follows").1.add_edge 2 3 "Blocks").1

/-- The snapshot frozen from `gW3e`. -/
def roW : ReadOnlyGraph Nat String String := gW3e.into_read_only

/-- A store with one node `1 ↦ "Alice"` and one dangling edge
`add_edge(1, 2, "Follows")` whose destination `2` was never inserted
(permitted in optimized builds, where the `debug_assert!` is skipped). -/
def gDangling : Graph Nat String String :=
  ((Graph.default.insert 1 "Alice").2.add_edge 1 2 "Follows").1

/-- The snapshot frozen from the dangling-edge store. -/
def roDangling : ReadOnlyGraph Nat String String := gDangling.into_read_only

/-- Iterated state: `m` successive `add_edge(0, 0, ())` self-loop calls on a store that
holds the single node `0`. -/
def loopAdd : Nat → Graph Nat Unit Unit
  | 0 => (Graph.default.insert 0 ()).2
  | m + 1 => ((loopAdd m).add_edge 0 0 ()).1

/-- The store after `2 ^ 64 + 1` edge insertions: the `u64` id counter
has wrapped around and edge id `0` has been issued twice. -/
def gWrap : Graph Nat Unit Unit := loopAdd (U64 + 1)

/-- The state of a fresh store after `m` bare `next_edge_id` calls
(sequential edge-id allocation, nothing else). -/
def afterAllocs : Nat → Graph Nat Unit Unit
  | 0 => Graph.default
  | m + 1 => (afterAllocs m).next_edge_id.2

/-- The id returned by the `k`-th sequential `next_edge_id` call
(`k ≥ 1`) on a fresh store. -/
def allocId (k : Nat) : EdgeId := (afterAllocs (k - 1)).next_edge_id.1

/-! ## Lemmas about the association-list model -/

section KeysLemmas

variable {α β : Type}

@[simp] theorem keys_nil : keys ([] : List (α × β)) = [] :=
  rfl

@[simp] theorem keys_cons (p : α × β) (rest : List (α × β)) :
    keys (p :: rest) = p.1 :: keys rest :=
  rfl

@[simp] theorem keys_append (l₁ l₂ : List (α × β)) :
    keys (l₁ ++ l₂) = keys l₁ ++ keys l₂ := by
  simp [keys]

end KeysLemmas

section AssocLemmas

variable {α β : Type} [DecidableEq α]

@[simp] theorem lookupA_nil (a : α) : lookupA ([] : List (α × β)) a = none :=
  rfl

@[simp] theorem lookupA_cons (k : α) (v : β) (rest : List (α × β)) (a : α) :
    lookupA ((k, v) :: rest) a = if k = a then some v else lookupA rest a :=
  rfl

@[simp] theorem insertA_nil (a : α) (b : β) :
    insertA ([] : List (α × β)) a b = [(a, b)] :=
  rfl

@[simp] theorem insertA_cons (k : α) (v : β) (rest : List (α × β)) (a : α)
    (b : β) :
    insertA ((k, v) :: rest) a b =
      if k = a then (a, b) :: rest else (k, v) :: insertA rest a b :=
  rfl

@[simp] theorem pushEntry_nil (a : α) (x : β) :
    pushEntry ([] : List (α × List β)) a x = [(a, [x])] :=
  rfl

@[simp] theorem pushEntry_cons (k : α) (xs : List β)
    (rest : List (α × List β)) (a : α) (x : β) :
    pushEntry ((k, xs) :: rest) a x =
      if k = a then (k, xs ++ [x]) :: rest else (k, xs) :: pushEntry rest a x :=
  rfl

theorem lookupA_eq_none_iff (l : List (α × β)) (a : α) :
    lookupA l a = none ↔ a ∉ keys l := by
  induction l with
  | nil => simp
  | cons p rest ih =>
    obtain ⟨k, v⟩ := p
    by_cases h : k = a
    · subst h; simp
    · have h' : ¬a = k := fun hc => h hc.symm
      simp [h, h', ih]

theorem lookupA_isSome_iff (l : List (α × β)) (a : α) :
    (lookupA l a).isSome ↔ a ∈ keys l := by
  induction l with
  | nil => simp
  | cons p rest ih =>
    obtain ⟨k, v⟩ := p
    by_cases h : k = a
    · subst h; simp
    · have h' : ¬a = k := fun hc => h hc.symm
      simp [h, h', ih]

theorem lookupA_append (l₁ l₂ : List (α × β)) (a : α) :
    lookupA (l₁ ++ l₂) a = (lookupA l₁ a).or (lookupA l₂ a) := by
  induction l₁ with
  | nil => simp
  | cons p rest ih =>
    obtain ⟨k, v⟩ := p
    by_cases h : k = a <;> simp [h, ih]

theorem lookupA_insertA_self (l : List (α × β)) (a : α) (b : β) :
    lookupA (insertA l a b) a = some b := by
  induction l with
  | nil => simp
  | cons p rest ih =>
    obtain ⟨k, v⟩ := p
    by_cases h : k = a
    · subst h; simp
    · simp [h, ih]

theorem lookupA_insertA_ne (l : List (α × β)) (a a' : α) (b : β)
    (h : a' ≠ a) : lookupA (insertA l a b) a' = lookupA l a' := by
  have h' : ¬a = a' := fun hc => h hc.symm
  induction l with
  | nil => simp [h']
  | cons p rest ih =>
    obtain ⟨k, v⟩ := p
    by_cases hk : k = a
    · subst hk; simp [h']
    · by_cases hk' : k = a'
      · simp [hk, hk', h]
      · simp [hk, hk', ih]

theorem insertA_of_lookupA_none (l : List (α × β)) (a : α) (b : β)
    (h : lookupA l a = none) : insertA l a b = l ++ [(a, b)] := by
  induction l with
  | nil => simp
  | cons p rest ih =>
    obtain ⟨k, v⟩ := p
    by_cases hk : k = a
    · subst hk; simp at h
    · rw [lookupA_cons, if_neg hk] at h
      simp [hk, ih h]

theorem insertA_of_lookupA_some_eq (l : List (α × β)) (a : α) (b : β)
    (h : lookupA l a = some b) : insertA l a b = l := by
  induction l with
  | nil => simp at h
  | cons p rest ih =>
    obtain ⟨k, v⟩ := p
    by_cases hk : k = a
    · subst hk
      simp only [lookupA_cons, if_pos rfl] at h
      simp at h
      subst h
      simp
    · rw [lookupA_cons, if_neg hk] at h
      simp [hk, ih h]

theorem keys_insertA_of_mem (l : List (α × β)) (a : α) (b : β)
    (h : a ∈ keys l) : keys (insertA l a b) = keys l := by
  induction l with
  | nil => simp at h
  | cons p rest ih =>
    obtain ⟨k, v⟩ := p
    by_cases hk : k = a
    · subst hk; simp
    · simp only [keys_cons, List.mem_cons] at h
      rcases h with h | h
      · exact absurd h.symm hk
      · simp [hk, ih h]

theorem keys_insertA_of_not_mem (l : List (α × β)) (a : α) (b : β)
    (h : a ∉ keys l) : keys (insertA l a b) = keys l ++ [a] := by
  rw [insertA_of_lookupA_none l a b ((lookupA_eq_none_iff l a).mpr h)]
  simp

theorem nodup_keys_insertA (l : List (α × β)) (a : α) (b : β)
    (h : (keys l).Nodup) : (keys (insertA l a b)).Nodup := by
  by_cases hm : a ∈ keys l
  · rw [keys_insertA_of_mem l a b hm]; exact h
  · rw [keys_insertA_of_not_mem l a b hm]
    refine List.Nodup.append h (List.nodup_singleton a) ?_
    intro x hx hxa
    rw [List.mem_singleton] at hxa
    exact hm (hxa ▸ hx)

theorem lookupA_pushEntry_self (l : List (α × List β)) (a : α) (x : β) :
    lookupA (pushEntry l a x) a = some ((lookupA l a).getD [] ++ [x]) := by
  induction l with
  | nil => simp
  | cons p rest ih =>
    obtain ⟨k, xs⟩ := p
    by_cases h : k = a
    · subst h; simp
    · simp [h, ih]

theorem lookupA_pushEntry_ne (l : List (α × List β)) (a a' : α) (x : β)
    (h : a' ≠ a) : lookupA (pushEntry l a x) a' = lookupA l a' := by
  have h' : ¬a = a' := fun hc => h hc.symm
  induction l with
  | nil => simp [h']
  | cons p rest ih =>
    obtain ⟨k, xs⟩ := p
    by_cases hk : k = a
    · subst hk; simp [h']
    · by_cases hk' : k = a'
      · simp [hk, hk', h]
      · simp [hk, hk', ih]

theorem keys_pushEntry_of_mem (l : List (α × List β)) (a : α) (x : β)
    (h : a ∈ keys l) : keys (pushEntry l a x) = keys l := by
  induction l with
  | nil => simp at h
  | cons p rest ih =>
    obtain ⟨k, xs⟩ := p
    by_cases hk : k = a
    · subst hk; simp
    · simp only [keys_cons, List.mem_cons] at h
      rcases h with h | h
      · exact absurd h.symm hk
      · simp [hk, ih h]

theorem keys_pushEntry_of_not_mem (l : List (α × List β)) (a : α) (x : β)
    (h : a ∉ keys l) : keys (pushEntry l a x) = keys l ++ [a] := by
  induction l with
  | nil => simp
  | cons p rest ih =>
    obtain ⟨k, xs⟩ := p
    simp only [keys_cons, List.mem_cons] at h
    push_neg at h
    have hk : ¬k = a := fun hc => h.1 hc.symm
    simp [hk, ih h.2]

theorem nodup_keys_pushEntry (l : List (α × List β)) (a : α) (x : β)
    (h : (keys l).Nodup) : (keys (pushEntry l a x)).Nodup := by
  by_cases hm : a ∈ keys l
  · rw [keys_pushEntry_of_mem l a x hm]; exact h
  · rw [keys_pushEntry_of_not_mem l a x hm]
    refine List.Nodup.append h (List.nodup_singleton a) ?_
    intro x' hx hxa
    rw [List.mem_singleton] at hxa
    exact hm (hxa ▸ hx)

end AssocLemmas

/-! ## Lemmas about flattened adjacency indices -/

section OutPairsSimp

variable {K : Type}

@[simp] theorem outPairs_nil :
    outPairs ([] : List (K × List (EdgeId × K))) = [] :=
  rfl

@[simp] theorem outPairs_cons (p : K × List (EdgeId × K))
    (rest : List (K × List (EdgeId × K))) :
    outPairs (p :: rest) =
      p.2.map (fun e => (e.1, p.1, e.2)) ++ outPairs rest :=
  rfl

theorem outPairs_cons_mk (k : K) (xs : List (EdgeId × K))
    (rest : List (K × List (EdgeId × K))) :
    outPairs ((k, xs) :: rest) =
      xs.map (fun e => (e.1, k, e.2)) ++ outPairs rest :=
  rfl

theorem length_outPairs (idx : List (K × List (EdgeId × K))) :
    (outPairs idx).length = (idx.map (fun p => p.2.length)).sum := by
  induction idx with
  | nil => simp
  | cons p rest ih =>
    simp [ih]

end OutPairsSimp

section OutPairsLemmas

variable {K : Type} [DecidableEq K]

theorem outPairs_pushEntry_perm (idx : List (K × List (EdgeId × K)))
    (a : K) (x : EdgeId × K) :
    (outPairs (pushEntry idx a x)).Perm ((x.1, a, x.2) :: outPairs idx) := by
  induction idx with
  | nil => simp
  | cons p rest ih =>
    obtain ⟨k, xs⟩ := p
    by_cases h : k = a
    · subst h
      have hpe : pushEntry ((k, xs) :: rest) k x = (k, xs ++ [x]) :: rest := by
        simp
      rw [hpe, outPairs_cons]
      simp only [List.map_append, List.append_assoc, List.map_cons,
        List.map_nil, List.singleton_append]
      exact List.perm_middle
    · simp only [pushEntry_cons, if_neg h, outPairs_cons]
      exact (List.Perm.append_left _ ih).trans List.perm_middle

theorem mem_outPairs_of_lookupA (idx : List (K × List (EdgeId × K)))
    (k : K) (es : List (EdgeId × K)) (y : EdgeId × K)
    (hl : lookupA idx k = some es) (hy : y ∈ es) :
    (y.1, k, y.2) ∈ outPairs idx := by
  induction idx with
  | nil => simp at hl
  | cons p rest ih =>
    obtain ⟨k', xs⟩ := p
    by_cases h : k' = k
    · subst h
      simp at hl
      subst hl
      simp only [outPairs_cons, List.mem_append]
      exact Or.inl (List.mem_map.mpr ⟨y, hy, rfl⟩)
    · rw [lookupA_cons, if_neg h] at hl
      simp only [outPairs_cons, List.mem_append]
      exact Or.inr (ih hl)

end OutPairsLemmas

/-! ## Unfolding lemmas for the graph operations -/

section OpUnfold

variable {K V E : Type} [DecidableEq K]

theorem insert_fst (g : Graph K V E) (key : K) (value : V) :
    (g.insert key value).1 = lookupA g.nodes key :=
  rfl

theorem insert_snd (g : Graph K V E) (key : K) (value : V) :
    (g.insert key value).2 = { g with nodes := insertA g.nodes key value } :=
  rfl

theorem add_edge_fst (g : Graph K V E) (a b : K) (e : E) :
    (g.add_edge a b e).1 =
      { nodes := g.nodes,
        edges := insertA g.edges (g.curr_edge_id % U64) e,
        «to» := pushEntry g.«to» b (g.curr_edge_id % U64, a),
        «from» := pushEntry g.«from» a (g.curr_edge_id % U64, b),
        curr_edge_id := (g.curr_edge_id + 1) % U64 } :=
  rfl

theorem add_edge_snd (g : Graph K V E) (a b : K) (e : E) :
    (g.add_edge a b e).2 = () :=
  rfl

omit [DecidableEq K] in
theorem clone_eq (g : Graph K V E) : g.clone = g :=
  rfl

omit [DecidableEq K] in
theorem outIds_def (idx : List (K × List (EdgeId × K))) :
    outIds idx = (outPairs idx).map Prod.fst :=
  rfl

end OpUnfold

/-! ## The adjacency invariant holds below the counter wrap -/

theorem strongInv_of_reachableN {K V E : Type} [DecidableEq K]
    {n : Nat} {g : Graph K V E} (h : ReachableN n g) (hn : n ≤ U64) :
    StrongInv g n := by
  revert hn
  induction h with
  | base =>
    intro _
    simp [StrongInv, Graph.default, outIds]
  | insert n g key value hr ih =>
    intro hn
    obtain ⟨h1, h2, h3, h4, h5, h6, h7, h8, h9⟩ := ih hn
    rw [insert_snd]
    exact ⟨h1, h2, h3, h4, h5, h6, nodup_keys_insertA _ _ _ h7, h8, h9⟩
  | modify n g key value hr ih =>
    intro hn
    obtain ⟨h1, h2, h3, h4, h5, h6, h7, h8, h9⟩ := ih hn
    cases hl : lookupA g.nodes key with
    | none =>
      have hg : g.modify_node key value = g := by
        simp [Graph.modify_node, hl]
      rw [hg]
      exact ⟨h1, h2, h3, h4, h5, h6, h7, h8, h9⟩
    | some v =>
      have hg : g.modify_node key value =
          { g with nodes := insertA g.nodes key value } := by
        simp [Graph.modify_node, hl]
      rw [hg]
      exact ⟨h1, h2, h3, h4, h5, h6, nodup_keys_insertA _ _ _ h7, h8, h9⟩
  | add_edge n g a b e hr ih =>
    intro hn
    have hnU : n < U64 := Nat.lt_of_succ_le hn
    obtain ⟨h1, h2, h3, h4, h5, h6, h7, h8, h9⟩ := ih (Nat.le_of_lt hnU)
    have hid : g.curr_edge_id % U64 = n := by
      rw [h1, Nat.mod_eq_of_lt hnU, Nat.mod_eq_of_lt hnU]
    rw [add_edge_fst, hid]
    have hnone : lookupA g.edges n = none := by
      rw [lookupA_eq_none_iff, h2]
      simp
    have hpf := outPairs_pushEntry_perm g.«from» a (n, b)
    have hpt := outPairs_pushEntry_perm g.«to» b (n, a)
    refine ⟨?_, ?_, ?_, ?_, ?_, ?_, ?_, ?_, ?_⟩
    · show (g.curr_edge_id + 1) % U64 = (n + 1) % U64
      rw [h1, Nat.mod_eq_of_lt hnU]
    · show keys (insertA g.edges n e) = List.range (n + 1)
      rw [insertA_of_lookupA_none _ _ _ hnone, keys_append, h2]
      simp [List.range_succ]
    · show (outIds (pushEntry g.«from» a (n, b))).Perm (List.range (n + 1))
      rw [outIds_def]
      refine (hpf.map Prod.fst).trans ?_
      refine (List.Perm.cons n h3).trans ?_
      rw [List.range_succ]
      exact (List.perm_append_singleton n (List.range n)).symm
    · show (outIds (pushEntry g.«to» b (n, a))).Perm (List.range (n + 1))
      rw [outIds_def]
      refine (hpt.map Prod.fst).trans ?_
      refine (List.Perm.cons n h4).trans ?_
      rw [List.range_succ]
      exact (List.perm_append_singleton n (List.range n)).symm
    · intro t ht
      rcases List.mem_cons.mp (hpf.mem_iff.mp ht) with rfl | hold
      · exact hpt.mem_iff.mpr (List.mem_cons_self _ _)
      · exact hpt.mem_iff.mpr (List.mem_cons_of_mem _ (h5 t hold))
    · intro t ht
      rcases List.mem_cons.mp (hpt.mem_iff.mp ht) with rfl | hold
      · exact hpf.mem_iff.mpr (List.mem_cons_self _ _)
      · exact hpf.mem_iff.mpr (List.mem_cons_of_mem _ (h6 t hold))
    · exact h7
    · exact nodup_keys_pushEntry _ _ _ h8
    · exact nodup_keys_pushEntry _ _ _ h9
  | clone n g hr ih =>
    intro hn
    rw [clone_eq]
    exact ih hn

theorem adjacencyInv_of_strongInv {K V E : Type} [DecidableEq K]
    {g : Graph K V E} {n : Nat} (h : StrongInv g n) : AdjacencyInv g := by
  obtain ⟨h1, h2, h3, h4, h5, h6, h7, h8, h9⟩ := h
  refine ⟨?_, ?_, ?_⟩
  · intro p hp
    have hkey : p.1 ∈ List.range n := by
      rw [← h2]
      exact List.mem_map.mpr ⟨p, hp, rfl⟩
    constructor
    · rw [h3.count_eq]
      exact List.count_eq_one_of_mem (List.nodup_range n) hkey
    · rw [h4.count_eq]
      exact List.count_eq_one_of_mem (List.nodup_range n) hkey
  · intro t ht
    have hid : t.1 ∈ List.range n := by
      rw [← h3.mem_iff]
      exact List.mem_map.mpr ⟨t, ht, rfl⟩
    refine ⟨?_, h5 t ht⟩
    rw [lookupA_isSome_iff, h2]
    exact hid
  · intro t ht
    have hid : t.1 ∈ List.range n := by
      rw [← h4.mem_iff]
      exact List.mem_map.mpr ⟨t, ht, rfl⟩
    refine ⟨?_, h6 t ht⟩
    rw [lookupA_isSome_iff, h2]
    exact hid

/-! ## Claims C1, C4, C7, C8, C9, C5 -/

/-- C1 counterexample: `add_edge` does not return the newly allocated
edge identifier — its return type is `()`. Two calls that allocate
different fresh ids (`0` for the first call, `1` for the second) return
the very same value, so the returned value cannot be the allocated id. -/
theorem C1_counterexample :
    gW3.next_edge_id.1 = 0
    ∧ (gW3.add_edge 1 2 "Follows").1.next_edge_id.1 = 1
    ∧ (0 : EdgeId) ≠ 1
    ∧ (gW3.add_edge 1 2 "Follows").2
        = ((gW3.add_edge 1 2 "Follows").1.add_edge 2 3 "Blocks").2 := by
  refine ⟨by decide, by decide, by decide, rfl⟩

/-- C1 (amended): `add_edge` never fails — it is a total operation that
always completes — and it always allocates a fresh edge id (the pre-call
counter value reduced mod 2^64) under which the payload becomes
retrievable; but the call returns the unit value, not the id. -/
theorem C1_add_edge_total_returns_unit {K V E : Type} [DecidableEq K]
    (g : Graph K V E) (a b : K) (e : E) :
    (g.add_edge a b e).2 = ()
    ∧ (g.add_edge a b e).1.get_edge (g.curr_edge_id % U64) = some e := by
  refine ⟨rfl, ?_⟩
  rw [add_edge_fst]
  exact lookupA_insertA_self _ _ _

/-- C4: `insert` has overwrite semantics: it returns the currently stored
payload of the key (the one set by the immediately preceding insertion),
returns the first value again on an immediate re-insert, leaves the new
value readable via `get_node`, and returns `none` on a fresh store where
the key was never inserted. -/
theorem C4_insert_overwrite {K V E : Type} [DecidableEq K]
    (g : Graph K V E) (key : K) (v₁ v₂ : V) :
    (g.insert key v₁).1 = g.get_node key
    ∧ ((g.insert key v₁).2.insert key v₂).1 = some v₁
    ∧ (g.insert key v₁).2.get_node key = some v₁
    ∧ ((Graph.default : Graph K V E).insert key v₁).1 = none := by
  refine ⟨rfl, ?_, ?_, rfl⟩
  · rw [insert_snd, insert_fst]
    exact lookupA_insertA_self g.nodes key v₁
  · rw [insert_snd]
    exact lookupA_insertA_self g.nodes key v₁

/-- C7: `Clone for Graph` copies the four maps verbatim and copies the
current allocator value into the duplicate, so the next id the duplicate
allocates equals the next id the original would allocate (the id spaces
of the two stores overlap). In this pure embedding the duplicate is a
fully independent value, so mutating one never affects the other. -/
theorem C7_clone_deep_copy {K V E : Type} (g : Graph K V E) :
    g.clone.nodes = g.nodes
    ∧ g.clone.edges = g.edges
    ∧ g.clone.«to» = g.«to»
    ∧ g.clone.«from» = g.«from»
    ∧ g.clone.curr_edge_id = g.curr_edge_id
    ∧ g.clone.next_edge_id.1 = g.next_edge_id.1 :=
  ⟨rfl, rfl, rfl, rfl, rfl, rfl⟩

/-- C8: `insert` writes only to the node store: the edge store, both
adjacency indices and the edge-id counter are unchanged by the call. -/
theorem C8_insert_touches_only_nodes {K V E : Type} [DecidableEq K]
    (g : Graph K V E) (key : K) (value : V) :
    (g.insert key value).2.edges = g.edges
    ∧ (g.insert key value).2.«to» = g.«to»
    ∧ (g.insert key value).2.«from» = g.«from»
    ∧ (g.insert key value).2.curr_edge_id = g.curr_edge_id :=
  ⟨rfl, rfl, rfl, rfl⟩

/-- C9: evaluation of `with_capacity(10)` at the failing input: the node
map is pre-sized for 10 entries, but the edge map is ALSO pre-sized for
10 entries — not `10 / 2 = 5` as the claim (and the function's own doc
comment, "edges will have less memory reserved") state; only the two
adjacency maps receive the computed `edge_capacity = 5`. -/
theorem C9_capacity_eval :
    (with_capacity_plan 10).nodesCapacity = 10
    ∧ (with_capacity_plan 10).edgesCapacity = 10
    ∧ (with_capacity_plan 10).edgesCapacity ≠ 10 / 2
    ∧ (with_capacity_plan 10).toCapacity = 10 / 2
    ∧ (with_capacity_plan 10).fromCapacity = 10 / 2 := by
  refine ⟨rfl, rfl, by decide, rfl, rfl⟩

/-- C5: indexing a snapshot by a present key returns exactly the stored
payload (the same value `get_node` returns), while indexing by an absent
key aborts (`expect` panic, modelled as `none`) and never produces a
payload — in contrast to `get_node`, whose `none` is an ordinary absent
indicator. -/
theorem C5_index_fatal_on_absent {K V E : Type} [DecidableEq K]
    (g : ReadOnlyGraph K V E) (key : K) :
    (g.has_node key = true →
      g.index key = g.get_node key ∧ (g.index key).isSome)
    ∧ (g.has_node key = false →
      g.index key = none ∧ g.get_node key = none) := by
  constructor
  · intro h
    have h' : (lookupA g.nodes key).isSome := h
    obtain ⟨v, hv⟩ := Option.isSome_iff_exists.mp h'
    simp [ReadOnlyGraph.index, ReadOnlyGraph.get_node, hv]
  · intro h
    cases hl : lookupA g.nodes key with
    | none => simp [ReadOnlyGraph.index, ReadOnlyGraph.get_node, hl]
    | some v =>
      rw [ReadOnlyGraph.has_node, hl] at h
      simp at h

/-- Witness for C5 at the frozen test store: key `1` is present and
indexes to `"Alice"`; key `99` was never inserted and indexing it
aborts (no payload). -/
theorem C5_witness :
    roW.index 1 = some ("Alice") ∧ roW.index 99 = none := by
  constructor
  · rw [((C5_index_fatal_on_absent roW 1).1 (by decide)).1]
    decide
  · exact ((C5_index_fatal_on_absent roW 99).2 (by decide)).1

/-! ## Claim C3: sequential edge-id allocation -/

theorem U64_eq : U64 = 18446744073709551616 := by
  norm_num [U64]

theorem afterAllocs_curr (m : Nat) :
    (afterAllocs m).curr_edge_id = m % U64 := by
  induction m with
  | zero => simp [afterAllocs, Graph.default]
  | succ m ih =>
    have hstep : (afterAllocs (m + 1)).curr_edge_id
        = ((afterAllocs m).curr_edge_id + 1) % U64 := rfl
    rw [hstep, ih, U64_eq]
    omega

theorem allocId_eq (k : Nat) : allocId k = (k - 1) % U64 := by
  have hstep : allocId k = (afterAllocs (k - 1)).curr_edge_id % U64 := rfl
  rw [hstep, afterAllocs_curr]
  exact Nat.mod_mod_of_dvd _ dvd_rfl

/-- C3 counterexample: on the model of the `u64` counter the
`(2^64 + 1)`-th sequential allocation wraps around and returns id `0`
again — not the id `2^64` the claim requires — so the ids issued within
one store lifetime are not all pairwise distinct. -/
theorem C3_counterexample :
    allocId (U64 + 1) = 0
    ∧ allocId 1 = 0
    ∧ (U64 + 1 : Nat) ≠ 1
    ∧ allocId (U64 + 1) ≠ (U64 + 1) - 1 := by
  have h1 : allocId (U64 + 1) = 0 := by
    rw [allocId_eq, Nat.add_sub_cancel, Nat.mod_self]
  have h2 : allocId 1 = 0 := by
    rw [allocId_eq]
    simp
  refine ⟨h1, h2, by rw [U64_eq]; omega, ?_⟩
  rw [h1, Nat.add_sub_cancel, U64_eq]
  decide

/-- C3 (amended): the k-th sequential allocation (k ≥ 1) on a fresh store
yields the identifier (k - 1) mod 2^64; in particular ids are pairwise
distinct among the first 2^64 allocations of one store's lifetime. -/
theorem C3_alloc_monotone (j k : Nat) (hj : 1 ≤ j) (hjk : j < k)
    (hk : k ≤ U64) :
    allocId j = j - 1 ∧ allocId k = k - 1 ∧ allocId j ≠ allocId k := by
  have hj1 : j - 1 < U64 := by omega
  have hk1 : k - 1 < U64 := by omega
  have e1 : allocId j = j - 1 := by rw [allocId_eq, Nat.mod_eq_of_lt hj1]
  have e2 : allocId k = k - 1 := by rw [allocId_eq, Nat.mod_eq_of_lt hk1]
  refine ⟨e1, e2, ?_⟩
  rw [e1, e2]
  have hne : (j - 1 : Nat) ≠ (k - 1 : Nat) := by omega
  exact hne

/-- Witness for C3 (amended) at j = 1, k = 2: the first two allocations
yield 0 and 1, which differ. -/
theorem C3_witness :
    allocId 1 = 0 ∧ allocId 2 = 1 ∧ allocId 1 ≠ allocId 2 := by
  have h := C3_alloc_monotone 1 2 (by decide) (by decide)
    (by rw [U64_eq]; omega)
  exact ⟨h.1, h.2.1, h.2.2⟩

/-! ## Claim C2: adjacency bookkeeping -/

/-- C2 (amended): in every state reachable with at most 2^64 `add_edge`
calls (before the id counter can wrap), every edge id in the edge store
appears exactly once among the outgoing-index entries and exactly once
among the incoming-index entries, each adjacency entry references a
stored id, and the occurrence `(id, a, b)` in the outgoing index is
mirrored by `(id, b, a)` in the incoming index; moreover every
`add_edge(a, b, e)` call appends exactly the entry `(id, b)` to the
outgoing list of `a` and exactly `(id, a)` to the incoming list of `b`
(leaving all other lists unchanged), and makes `get_edge(id)` return
`e`, where `id` is the pre-call counter value mod 2^64. -/
theorem C2_adjacency_exactly_once {K V E : Type} [DecidableEq K]
    (g : Graph K V E) (n : Nat) (h : ReachableN n g) (hn : n ≤ U64) :
    AdjacencyInv g
    ∧ ∀ (a b : K) (e : E),
        (g.add_edge a b e).1.edges_from a
            = some ((g.edges_from a).getD [] ++ [(g.curr_edge_id % U64, b)])
        ∧ (g.add_edge a b e).1.edges_to b
            = some ((g.edges_to b).getD [] ++ [(g.curr_edge_id % U64, a)])
        ∧ (∀ k, k ≠ a → (g.add_edge a b e).1.edges_from k = g.edges_from k)
        ∧ (∀ k, k ≠ b → (g.add_edge a b e).1.edges_to k = g.edges_to k)
        ∧ (g.add_edge a b e).1.get_edge (g.curr_edge_id % U64) = some e := by
  refine ⟨adjacencyInv_of_strongInv (strongInv_of_reachableN h hn), ?_⟩
  intro a b e
  refine ⟨?_, ?_, ?_, ?_, ?_⟩
  · rw [add_edge_fst]
    exact lookupA_pushEntry_self _ _ _
  · rw [add_edge_fst]
    exact lookupA_pushEntry_self _ _ _
  · intro k hk
    rw [add_edge_fst]
    exact lookupA_pushEntry_ne _ _ _ _ hk
  · intro k hk
    rw [add_edge_fst]
    exact lookupA_pushEntry_ne _ _ _ _ hk
  · rw [add_edge_fst]
    exact lookupA_insertA_self _ _ _

/-- Witness for C2 at the two-edge test store: edge id 0 occurs exactly
once in each index, and a further `add_edge(3, 1, "Likes")` grows the
outgoing list of 3 by exactly `(2, 1)` and stores the payload under the
fresh id 2. -/
theorem C2_witness :
    (outIds gW3e.«from»).count 0 = 1
    ∧ (outIds gW3e.«to»).count 0 = 1
    ∧ (gW3e.add_edge 3 1 "Likes").1.edges_from 3 = some [(2, 1)]
    ∧ (gW3e.add_edge 3 1 "Likes").1.get_edge 2 = some ("Likes") := by
  have hreach : ReachableN 2 gW3e := by
    unfold gW3e gW3
    exact ReachableN.add_edge 1 _ 2 3 "Blocks"
      (ReachableN.add_edge 0 _ 1 2 "Follows"
        (ReachableN.insert 0 _ 3 "Charlie"
          (ReachableN.insert 0 _ 2 "Bob"
            (ReachableN.insert 0 _ 1 "Alice" ReachableN.base))))
  have h := C2_adjacency_exactly_once gW3e 2 hreach (by rw [U64_eq]; omega)
  refine ⟨?_, ?_, ?_, ?_⟩
  · exact (h.1.1 (0, "Follows") (by decide)).1
  · exact (h.1.1 (0, "Follows") (by decide)).2
  · have h2 := (h.2 3 1 "Likes").1
    have e1 : (gW3e.edges_from 3).getD [] = ([] : List (EdgeId × Nat)) := by
      decide
    have e2 : gW3e.curr_edge_id % U64 = 2 := by decide
    rw [e1, e2] at h2
    simpa using h2
  · have h2 := (h.2 3 1 "Likes").2.2.2.2
    have e2 : gW3e.curr_edge_id % U64 = 2 := by decide
    rw [e2] at h2
    exact h2

/-! ## Iteration over a snapshot -/

theorem lookupA_of_mem_nodup {α β : Type} [DecidableEq α]
    (l : List (α × β)) (p : α × β) (hn : (keys l).Nodup) (hp : p ∈ l) :
    lookupA l p.1 = some p.2 := by
  induction l with
  | nil => simp at hp
  | cons q rest ih =>
    obtain ⟨k, v⟩ := q
    rcases List.mem_cons.mp hp with rfl | hmem
    · simp
    · have hk : k ∉ keys rest := (List.nodup_cons.mp hn).1
      have hne : k ≠ p.1 := fun hc =>
        hk (by rw [hc]; exact List.mem_map.mpr ⟨p, hmem, rfl⟩)
      simp [hne, ih (List.nodup_cons.mp hn).2 hmem]

section IterLemmas

variable {K V E : Type} [DecidableEq K]

theorem edgeTriples_spec (ro : ReadOnlyGraph K V E) (v : V)
    (es : List (EdgeId × K))
    (h : ∀ y ∈ es, (lookupA ro.edges y.1).isSome
        ∧ (lookupA ro.nodes y.2).isSome) :
    ∃ ts, ro.edgeTriples v es = some ts ∧ ts.length = es.length
      ∧ ∀ i (hi : i < es.length) (hi' : i < ts.length),
          (ts.get ⟨i, hi'⟩).1 = v
          ∧ lookupA ro.edges (es.get ⟨i, hi⟩).1 = some (ts.get ⟨i, hi'⟩).2.1
          ∧ lookupA ro.nodes (es.get ⟨i, hi⟩).2 = some (ts.get ⟨i, hi'⟩).2.2 := by
  induction es with
  | nil =>
    refine ⟨[], rfl, rfl, ?_⟩
    intro i hi hi'
    exact absurd hi (by simp)
  | cons y rest ih =>
    obtain ⟨yid, yt⟩ := y
    obtain ⟨h1, h2⟩ := h (yid, yt) (List.mem_cons_self _ _)
    obtain ⟨e, he⟩ := Option.isSome_iff_exists.mp h1
    obtain ⟨tv, htv⟩ := Option.isSome_iff_exists.mp h2
    obtain ⟨ts, hts, hlen, hget⟩ :=
      ih (fun y hy => h y (List.mem_cons_of_mem _ hy))
    refine ⟨(v, e, tv) :: ts, ?_, by simp [hlen], ?_⟩
    · simp [ReadOnlyGraph.edgeTriples, he, htv, hts]
    · intro i hi hi'
      cases i with
      | zero => exact ⟨rfl, he, htv⟩
      | succ i =>
        exact hget i (Nat.lt_of_succ_lt_succ hi) (Nat.lt_of_succ_lt_succ hi')

theorem sum_map_ite {α : Type} [DecidableEq α] (l : List α) (a : α)
    (c : Nat) :
    (l.map (fun k => if k = a then c else 0)).sum = c * l.count a := by
  induction l with
  | nil => simp
  | cons x rest ih =>
    by_cases h : x = a
    · subst h
      simp [ih, List.count_cons_self, Nat.mul_succ, Nat.add_comm]
    · have h' : a ≠ x := fun hc => h hc.symm
      simp [h, ih, List.count_cons_of_ne h']

theorem sum_lookup_eq_sum_len (nodesK : List K)
    (idx : List (K × List (EdgeId × K)))
    (hn : nodesK.Nodup) (hk : (keys idx).Nodup)
    (hc : ∀ p ∈ idx, p.2 ≠ [] → p.1 ∈ nodesK) :
    (nodesK.map (fun k => ((lookupA idx k).getD []).length)).sum
      = (idx.map (fun p => p.2.length)).sum := by
  induction idx with
  | nil => simp
  | cons p rest ih =>
    obtain ⟨k0, es⟩ := p
    have hk' : (keys rest).Nodup := (List.nodup_cons.mp hk).2
    have hk0 : k0 ∉ keys rest := (List.nodup_cons.mp hk).1
    have hrestnone : lookupA rest k0 = none :=
      (lookupA_eq_none_iff _ _).mpr hk0
    have hpt : ∀ k ∈ nodesK,
        ((lookupA ((k0, es) :: rest) k).getD []).length
          = ((lookupA rest k).getD []).length
            + (if k = k0 then es.length else 0) := by
      intro k _
      by_cases h : k = k0
      · subst h
        simp [hrestnone]
      · have h0 : ¬(k0 = k) := fun hc' => h hc'.symm
        simp [h, h0]
    rw [List.map_congr_left hpt, List.sum_map_add, sum_map_ite,
      ih hk' (fun p hp hne => hc p (List.mem_cons_of_mem _ hp) hne)]
    by_cases hmem : k0 ∈ nodesK
    · rw [List.count_eq_one_of_mem hn hmem]
      simp [Nat.add_comm]
    · have hes : es = [] := by
        by_contra hne
        exact hmem (hc (k0, es) (List.mem_cons_self _ _) hne)
      subst hes
      simp [List.count_eq_zero_of_not_mem hmem]

theorem iterGo_spec (ro : ReadOnlyGraph K V E) (nl : List (K × V))
    (h : ∀ p ∈ nl, ∀ es, lookupA ro.«from» p.1 = some es →
        ∀ y ∈ es, (lookupA ro.edges y.1).isSome
          ∧ (lookupA ro.nodes y.2).isSome) :
    ∃ l, ro.iterGo nl = some l
      ∧ l.length
          = (nl.map
              (fun p => ((lookupA ro.«from» p.1).getD []).length)).sum := by
  induction nl with
  | nil => exact ⟨[], rfl, by simp⟩
  | cons p rest ih =>
    obtain ⟨l, hl, hlen⟩ := ih (fun q hq => h q (List.mem_cons_of_mem _ hq))
    obtain ⟨k, v⟩ := p
    cases hf : lookupA ro.«from» k with
    | none =>
      refine ⟨l, ?_, ?_⟩
      · simp [ReadOnlyGraph.iterGo, hf, hl]
      · simp [hf, hlen]
    | some es =>
      obtain ⟨ts, hts, htslen, _⟩ :=
        edgeTriples_spec ro v es (h (k, v) (List.mem_cons_self _ _) es hf)
      refine ⟨ts ++ l, ?_, ?_⟩
      · simp [ReadOnlyGraph.iterGo, hf, hts, hl]
      · simp [hf, htslen, hlen]

end IterLemmas

/-! ## Claim C10: unchecked unwraps during snapshot iteration -/

/-- C10: `iter_edges_from` and `iter` resolve each adjacency entry with
unconditional `unwrap`s. Whenever every outgoing adjacency entry
references an edge id present in the edge map and a destination key
present in the node map, no unwrap panics: `iter_edges_from` never
returns a panicking iterator and `iter` produces its full list. A
reachable store with a dangling edge (destination never inserted,
permitted in optimized builds) freezes to a snapshot whose `iter`
panics (`none`) instead of returning an absent indicator. -/
theorem C10_iter_unwraps {K V E : Type} [DecidableEq K]
    (ro : ReadOnlyGraph K V E)
    (h : ∀ t ∈ outPairs ro.«from»,
        (lookupA ro.edges t.1).isSome ∧ (lookupA ro.nodes t.2.2).isSome) :
    (∀ key, ro.iter_edges_from key ≠ some none)
    ∧ (ro.iter).isSome
    ∧ Reachable gDangling
    ∧ roDangling.iter = none := by
  have hcond : ∀ (k : K) (es : List (EdgeId × K)),
      lookupA ro.«from» k = some es →
      ∀ y ∈ es, (lookupA ro.edges y.1).isSome
        ∧ (lookupA ro.nodes y.2).isSome := by
    intro k es hf y hy
    exact h (y.1, k, y.2) (mem_outPairs_of_lookupA _ _ _ _ hf hy)
  refine ⟨?_, ?_, ?_, ?_⟩
  · intro key
    cases hg : ro.get_node key with
    | none => simp [ReadOnlyGraph.iter_edges_from, hg]
    | some v =>
      cases hf : ro.edge_ids_from key with
      | none => simp [ReadOnlyGraph.iter_edges_from, hg, hf]
      | some es =>
        obtain ⟨ts, hts, _, _⟩ := edgeTriples_spec ro v es (hcond key es hf)
        simp [ReadOnlyGraph.iter_edges_from, hg, hf, hts]
  · obtain ⟨l, hl, _⟩ := iterGo_spec ro ro.nodes (fun p _ => hcond p.1)
    show (ro.iterGo ro.nodes).isSome
    rw [hl]
    rfl
  · exact ⟨1, ReachableN.add_edge 0 _ 1 2 "Follows"
      (ReachableN.insert 0 _ 1 "Alice" ReachableN.base)⟩
  · decide

/-- Witness for C10 at the frozen test store, which has no dangling
references: full iteration succeeds (and the dangling snapshot's
iteration panics). -/
theorem C10_witness :
    (roW.iter).isSome ∧ roDangling.iter = none := by
  have h := C10_iter_unwraps roW (by decide)
  exact ⟨h.2.1, h.2.2.2⟩

/-! ## Claim C6: iterate-all-edges on a snapshot -/

theorem into_read_only_nodes {K V E : Type} (g : Graph K V E) :
    g.into_read_only.nodes = g.nodes :=
  rfl

theorem into_read_only_edges {K V E : Type} (g : Graph K V E) :
    g.into_read_only.edges = g.edges :=
  rfl

theorem into_read_only_from {K V E : Type} (g : Graph K V E) :
    g.into_read_only.«from» = g.«from» :=
  rfl

theorem into_read_only_to {K V E : Type} (g : Graph K V E) :
    g.into_read_only.«to» = g.«to» :=
  rfl

/-- C6 (amended): freeze a store reachable with at most 2^64 `add_edge`
calls whose edges all have source and destination keys present in the
node store. Then `iter` on the snapshot succeeds and yields exactly
`m = g.edges.length` triples — one per stored edge, none repeated or
omitted — and for every node, the triples produced for that node follow
its outgoing adjacency list in order: the i-th triple is (source
payload, payload of the i-th added edge, its destination's payload). -/
theorem C6_iter_yields_m_triples {K V E : Type} [DecidableEq K]
    (g : Graph K V E) (n : Nat) (h : ReachableN n g) (hn : n ≤ U64)
    (hp : ∀ t ∈ outPairs g.«from»,
        (lookupA g.nodes t.2.1).isSome ∧ (lookupA g.nodes t.2.2).isSome) :
    ∃ l, g.into_read_only.iter = some l ∧ l.length = g.edges.length
      ∧ ∀ key v es, lookupA g.nodes key = some v →
          lookupA g.«from» key = some es →
          ∃ ts, g.into_read_only.edgeTriples v es = some ts
            ∧ ts.length = es.length
            ∧ ∀ i (hi : i < es.length) (hi' : i < ts.length),
                (ts.get ⟨i, hi'⟩).1 = v
                ∧ lookupA g.edges (es.get ⟨i, hi⟩).1
                    = some (ts.get ⟨i, hi'⟩).2.1
                ∧ lookupA g.nodes (es.get ⟨i, hi⟩).2
                    = some (ts.get ⟨i, hi'⟩).2.2 := by
  obtain ⟨h1, h2, h3, h4, h5, h6, h7, h8, h9⟩ := strongInv_of_reachableN h hn
  have hedge : ∀ (k : K) (es : List (EdgeId × K)),
      lookupA g.«from» k = some es → ∀ y ∈ es,
        (lookupA g.edges y.1).isSome ∧ (lookupA g.nodes y.2).isSome := by
    intro k es hf y hy
    have hmem := mem_outPairs_of_lookupA _ _ _ _ hf hy
    constructor
    · rw [lookupA_isSome_iff, h2]
      exact h3.mem_iff.mp (List.mem_map.mpr ⟨(y.1, k, y.2), hmem, rfl⟩)
    · exact (hp (y.1, k, y.2) hmem).2
  obtain ⟨l, hl, hlen⟩ :=
    iterGo_spec g.into_read_only g.nodes (fun p _ => hedge p.1)
  simp only [into_read_only_from] at hlen
  refine ⟨l, hl, ?_, ?_⟩
  · rw [hlen]
    have hcov : ∀ p ∈ g.«from», p.2 ≠ [] → p.1 ∈ keys g.nodes := by
      intro p hpmem hne
      obtain ⟨y, hy⟩ := List.exists_mem_of_ne_nil p.2 hne
      have hlk : lookupA g.«from» p.1 = some p.2 :=
        lookupA_of_mem_nodup _ _ h8 hpmem
      have hmem := mem_outPairs_of_lookupA _ _ _ _ hlk hy
      have hsrc := (hp (y.1, p.1, y.2) hmem).1
      rw [lookupA_isSome_iff] at hsrc
      exact hsrc
    have hsum := sum_lookup_eq_sum_len (keys g.nodes) g.«from» h7 h8 hcov
    have hmm : (g.nodes.map
          (fun p => ((lookupA g.«from» p.1).getD []).length)).sum
        = ((keys g.nodes).map
            (fun k => ((lookupA g.«from» k).getD []).length)).sum := by
      rw [keys, List.map_map]
      rfl
    rw [hmm, hsum, ← length_outPairs]
    have hout : (outIds g.«from»).length = (outPairs g.«from»).length := by
      rw [outIds_def, List.length_map]
    rw [← hout, h3.length_eq, List.length_range]
    have hedgelen : g.edges.length = (keys g.edges).length := by
      rw [keys, List.length_map]
    rw [hedgelen, h2, List.length_range]
  · intro key v es hv hf
    exact edgeTriples_spec g.into_read_only v es
      (fun y hy => hedge key es hf y hy)

/-- Witness for C6 at the two-edge test store: full iteration over the
frozen snapshot succeeds and yields as many triples as there are
stored edges (two). -/
theorem C6_witness :
    (gW3e.into_read_only.iter).isSome ∧ gW3e.edges.length = 2 := by
  have hreach : ReachableN 2 gW3e := by
    unfold gW3e gW3
    exact ReachableN.add_edge 1 _ 2 3 "Blocks"
      (ReachableN.add_edge 0 _ 1 2 "Follows"
        (ReachableN.insert 0 _ 3 "Charlie"
          (ReachableN.insert 0 _ 2 "Bob"
            (ReachableN.insert 0 _ 1 "Alice" ReachableN.base))))
  obtain ⟨l, hl, hlen, _⟩ := C6_iter_yields_m_triples gW3e 2 hreach
    (by rw [U64_eq]; omega) (by decide)
  refine ⟨?_, by decide⟩
  rw [hl]
  rfl

/-! ## The counter wrap: closed form of the self-loop stress state -/

theorem lookupA_constMap (M j : Nat) :
    lookupA ((List.range M).map (fun i => (i, ()))) j
      = if j < M then some () else none := by
  induction M with
  | zero => simp
  | succ M ih =>
    rw [List.range_succ, List.map_append, lookupA_append, ih]
    by_cases h1 : j < M
    · simp [h1, Nat.lt_succ_of_lt h1]
    · by_cases h2 : j = M
      · subst h2
        simp [h1]
      · have h3 : ¬(M = j) := fun hc => h2 hc.symm
        have h4 : ¬(j < M + 1) := by omega
        simp [h1, h3, h4]

theorem loopAdd_spec (m : Nat) :
    (loopAdd m).nodes = [(0, ())]
    ∧ (loopAdd m).curr_edge_id = m % U64
    ∧ (loopAdd m).edges = (List.range (min m U64)).map (fun i => (i, ()))
    ∧ (loopAdd m).«from»
        = (if m = 0 then []
           else [(0, (List.range m).map (fun i => (i % U64, 0)))])
    ∧ (loopAdd m).«to»
        = (if m = 0 then []
           else [(0, (List.range m).map (fun i => (i % U64, 0)))]) := by
  induction m with
  | zero =>
    refine ⟨rfl, ?_, ?_, ?_, ?_⟩ <;> simp [loopAdd, Graph.default, Graph.insert]
  | succ m ih =>
    obtain ⟨ihn, ihc, ihe, ihf, iht⟩ := ih
    have hstep : loopAdd (m + 1) = ((loopAdd m).add_edge 0 0 ()).1 := rfl
    rw [hstep, add_edge_fst]
    have hidm : (loopAdd m).curr_edge_id % U64 = m % U64 := by
      rw [ihc]
      exact Nat.mod_mod_of_dvd _ dvd_rfl
    refine ⟨ihn, ?_, ?_, ?_, ?_⟩
    · show ((loopAdd m).curr_edge_id + 1) % U64 = (m + 1) % U64
      rw [ihc, U64_eq]
      omega
    · show insertA (loopAdd m).edges ((loopAdd m).curr_edge_id % U64) ()
          = (List.range (min (m + 1) U64)).map (fun i => (i, ()))
      rw [hidm, ihe]
      by_cases hm : m < U64
      · have hmin : min m U64 = m := Nat.min_eq_left (Nat.le_of_lt hm)
        have hmin' : min (m + 1) U64 = m + 1 := Nat.min_eq_left hm
        rw [hmin, hmin', Nat.mod_eq_of_lt hm]
        have hnone :
            lookupA ((List.range m).map (fun i => (i, ()))) m = none := by
          rw [lookupA_constMap]
          simp
        rw [insertA_of_lookupA_none _ _ _ hnone, List.range_succ]
        simp
      · have hge : U64 ≤ m := Nat.le_of_not_lt hm
        have hmin : min m U64 = U64 := Nat.min_eq_right hge
        have hmin' : min (m + 1) U64 = U64 :=
          Nat.min_eq_right (Nat.le_succ_of_le hge)
        rw [hmin, hmin']
        have hlt : m % U64 < U64 := Nat.mod_lt _ (by rw [U64_eq]; omega)
        have hsome :
            lookupA ((List.range U64).map (fun i => (i, ()))) (m % U64)
              = some () := by
          rw [lookupA_constMap]
          simp [hlt]
        exact insertA_of_lookupA_some_eq _ _ _ hsome
    · show pushEntry (loopAdd m).«from» 0 ((loopAdd m).curr_edge_id % U64, 0)
          = _
      rw [hidm, ihf, if_neg (Nat.succ_ne_zero m)]
      by_cases hm : m = 0
      · subst hm
        simp [List.range_succ]
      · rw [if_neg hm]
        have hpe : pushEntry
              [((0 : Nat), (List.range m).map (fun i => ((i % U64 : EdgeId), (0 : Nat))))]
              0 (m % U64, 0)
            = [((0 : Nat), (List.range m).map (fun i => ((i % U64 : EdgeId), (0 : Nat)))
                ++ [(m % U64, 0)])] := by
          simp
        rw [hpe, List.range_succ]
        simp
    · show pushEntry (loopAdd m).«to» 0 ((loopAdd m).curr_edge_id % U64, 0)
          = _
      rw [hidm, iht, if_neg (Nat.succ_ne_zero m)]
      by_cases hm : m = 0
      · subst hm
        simp [List.range_succ]
      · rw [if_neg hm]
        have hpe : pushEntry
              [((0 : Nat), (List.range m).map (fun i => ((i % U64 : EdgeId), (0 : Nat))))]
              0 (m % U64, 0)
            = [((0 : Nat), (List.range m).map (fun i => ((i % U64 : EdgeId), (0 : Nat)))
                ++ [(m % U64, 0)])] := by
          simp
        rw [hpe, List.range_succ]
        simp

theorem reachableN_loopAdd (m : Nat) : ReachableN m (loopAdd m) := by
  induction m with
  | zero => exact ReachableN.insert 0 Graph.default 0 () ReachableN.base
  | succ m ih => exact ReachableN.add_edge m (loopAdd m) 0 0 () ih

theorem gWrap_nodes : gWrap.nodes = [(0, ())] :=
  (loopAdd_spec (U64 + 1)).1

theorem gWrap_edges :
    gWrap.edges = (List.range U64).map (fun i => (i, ())) := by
  have h := (loopAdd_spec (U64 + 1)).2.2.1
  show (loopAdd (U64 + 1)).edges = _
  rw [h, Nat.min_eq_right (Nat.le_succ U64)]

theorem gWrap_from :
    gWrap.«from»
      = [(0, (List.range (U64 + 1)).map (fun i => (i % U64, 0)))] := by
  have h := (loopAdd_spec (U64 + 1)).2.2.2.1
  show (loopAdd (U64 + 1)).«from» = _
  rw [h, if_neg (Nat.succ_ne_zero U64)]

theorem gWrap_outIds :
    outIds gWrap.«from» = (List.range (U64 + 1)).map (fun i => i % U64) := by
  rw [gWrap_from, outIds_def]
  simp [outPairs, List.map_map]

theorem gWrap_count_zero : (outIds gWrap.«from»).count 0 = 2 := by
  rw [gWrap_outIds, List.range_succ, List.map_append, List.count_append]
  have h1 : ((List.range U64).map (fun i => i % U64)).count 0 = 1 := by
    have hc : (List.range U64).map (fun i => i % U64)
        = (List.range U64).map (fun i => i) :=
      List.map_congr_left (fun i hi => Nat.mod_eq_of_lt (List.mem_range.mp hi))
    rw [hc, List.map_id']
    exact List.count_eq_one_of_mem (List.nodup_range U64)
      (List.mem_range.mpr (by rw [U64_eq]; omega))
  have h2 : (([U64] : List Nat).map (fun i => i % U64)).count 0 = 1 := by
    simp [Nat.mod_self]
  rw [h1, h2]

/-- Evaluation of `iter` on a snapshot holding exactly one node: it yields exactly the
triples of that node's outgoing adjacency list. -/
theorem iter_single_node {K V E : Type} [DecidableEq K]
    (g : ReadOnlyGraph K V E) (k : K) (v : V)
    (es : List (EdgeId × K)) (ts : List (V × E × V))
    (hn : g.nodes = [(k, v)])
    (hf : lookupA g.«from» k = some es)
    (ht : g.edgeTriples v es = some ts) :
    g.iter = some ts := by
  show g.iterGo g.nodes = some ts
  rw [hn]
  simp only [ReadOnlyGraph.iterGo, hf, ht]
  simp

/-- C2 counterexample: the state reached by one `insert(0, ())` followed
by `2^64 + 1` `add_edge(0, 0, ())` calls is reachable, its edge store
still contains edge id 0, yet id 0 occurs TWICE (not exactly once) among
the outgoing-index entries, because the `u64` counter wrapped and reissued
id 0; the reissued edge silently overwrote the stored payload of the first
while both adjacency entries survive. -/
theorem C2_counterexample :
    ReachableN (U64 + 1) gWrap
    ∧ (lookupA gWrap.edges 0).isSome
    ∧ (outIds gWrap.«from»).count 0 = 2
    ∧ (outIds gWrap.«from»).count 0 ≠ 1 := by
  refine ⟨reachableN_loopAdd (U64 + 1), ?_, gWrap_count_zero, ?_⟩
  · rw [gWrap_edges, lookupA_constMap, if_pos (by rw [U64_eq]; omega)]
    rfl
  · rw [gWrap_count_zero]
    decide

/-- C6 counterexample: freezing the wrapped store of `C2_counterexample`
— in which every edge's source and destination key (always `0`) is
present in the node store and the store holds `m = 2^64` edges — makes
`iter` yield `2^64 + 1` triples, not `m`: the edge whose id was reissued
is visited twice through its two surviving adjacency entries. -/
theorem C6_counterexample :
    ReachableN (U64 + 1) gWrap
    ∧ ((outPairs gWrap.«from»).all
        (fun t => (lookupA gWrap.nodes t.2.1).isSome
          && (lookupA gWrap.nodes t.2.2).isSome)) = true
    ∧ gWrap.into_read_only.iter.map List.length = some (U64 + 1)
    ∧ gWrap.edges.length = U64
    ∧ U64 + 1 ≠ U64 := by
  have hpre : ∀ t ∈ outPairs gWrap.«from»,
      (lookupA gWrap.nodes t.2.1).isSome
        ∧ (lookupA gWrap.nodes t.2.2).isSome := by
    intro t ht
    rw [gWrap_from, outPairs_cons_mk, outPairs_nil, List.append_nil,
      List.mem_map] at ht
    obtain ⟨e, hme, rfl⟩ := ht
    rw [List.mem_map] at hme
    obtain ⟨i, hi, rfl⟩ := hme
    show (lookupA gWrap.nodes 0).isSome ∧ (lookupA gWrap.nodes 0).isSome
    rw [gWrap_nodes]
    exact ⟨by simp, by simp⟩
  have hcondL : ∀ y ∈ (List.range (U64 + 1)).map
        (fun i => ((i % U64, 0) : EdgeId × Nat)),
      (lookupA gWrap.into_read_only.edges y.1).isSome
        ∧ (lookupA gWrap.into_read_only.nodes y.2).isSome := by
    intro y hy
    simp only [List.mem_map] at hy
    obtain ⟨i, hi, rfl⟩ := hy
    constructor
    · rw [into_read_only_edges, gWrap_edges, lookupA_constMap,
        if_pos (Nat.mod_lt _ (by rw [U64_eq]; omega))]
      rfl
    · rw [into_read_only_nodes, gWrap_nodes]
      simp
  obtain ⟨ts, hts, htslen, _⟩ :=
    edgeTriples_spec gWrap.into_read_only () _ hcondL
  have hfrom0 : lookupA gWrap.into_read_only.«from» 0
      = some ((List.range (U64 + 1)).map
          (fun i => ((i % U64, 0) : EdgeId × Nat))) := by
    rw [into_read_only_from, gWrap_from]
    simp
  have hnodes0 : gWrap.into_read_only.nodes = [(0, ())] := by
    rw [into_read_only_nodes, gWrap_nodes]
  have hiter : gWrap.into_read_only.iter = some ts :=
    iter_single_node gWrap.into_read_only 0 () _ ts hnodes0 hfrom0 hts
  refine ⟨reachableN_loopAdd (U64 + 1), ?_, ?_, ?_, ?_⟩
  · rw [List.all_eq_true]
    intro t ht
    rw [Bool.and_eq_true]
    exact ⟨(hpre t ht).1, (hpre t ht).2⟩
  · rw [hiter]
    show some ts.length = some (U64 + 1)
    rw [htslen, List.length_map, List.length_range]
  · rw [gWrap_edges, List.length_map, List.length_range]
  · rw [U64_eq]
    omega

end Weave
